import Mathlib

/-!
Verification of the campaign-orchestration core of the outreach-email
dashboard (`src/app.py`).  Strings are modelled as `List Char`; the
JavaScript / Python string primitives the source uses (`includes`,
`split(sep, 2)`, `match`, `trim` / `strip`, `splitlines`, `lower`,
`split(",", 1)`) are embedded as executable functions below, and the
handlers of the page (prompt codec, prospect list parsing, template
upsert, the send route, Play Mode and the Full Automation Queue) are
translated from the source on top of them.
-/

namespace Dashboard

deriving instance DecidableEq for Except

/-- ASCII lower-casing of one character, as `String.prototype.toLowerCase`,
the regex `i` flag and Python `str.lower` act on the ASCII inputs the
dashboard handles. -/
def toLowerChar (c : Char) : Char :=
  if 'A' ≤ c ∧ c ≤ 'Z' then Char.ofNat (c.toNat + 32) else c

/-- The whitespace class shared by JavaScript `trim` / `\s` and Python
`str.strip` on the character set the dashboard handles. -/
def isWS (c : Char) : Bool :=
  c == ' ' || c == '\t' || c == '\n' || c == '\r' || c == '\x0b' || c == '\x0c'

/-- Characters the JavaScript regex `.` matches (no line terminators). -/
def notLineEnd (c : Char) : Bool := !(c == '\n' || c == '\r')

/-- Strip leading whitespace (left half of `trim` / `strip`). -/
def trimL (l : List Char) : List Char := l.dropWhile isWS

/-- Strip trailing whitespace (right half of `trim` / `strip`). -/
def trimR (l : List Char) : List Char := (l.reverse.dropWhile isWS).reverse

/-- JavaScript `String.prototype.trim` / Python `str.strip`. -/
def trim (l : List Char) : List Char := trimR (trimL l)

/-- Does `s` start with `pat` (exact characters)? -/
def begins : List Char → List Char → Bool
  | [], _ => true
  | _ :: _, [] => false
  | p :: ps, c :: cs => p == c && begins ps cs

/-- Split `s` at the first occurrence of the substring `sep`:
`some (before, after)` when `sep` occurs, `none` otherwise.  This is the
primitive behind JavaScript `includes` and `split(sep, n)`. -/
def splitFirst (sep : List Char) : List Char → Option (List Char × List Char)
  | [] => none
  | c :: rest =>
    if begins sep (c :: rest) then some ([], (c :: rest).drop sep.length)
    else
      match splitFirst sep rest with
      | none => none
      | some (pre, post) => some (c :: pre, post)

/-- Case-insensitive `begins` (ASCII), as a regex literal with the `i` flag
matches. -/
def beginsCI : List Char → List Char → Bool
  | [], _ => true
  | _ :: _, [] => false
  | p :: ps, c :: cs => toLowerChar p == toLowerChar c && beginsCI ps cs

/-- Find the leftmost case-insensitive occurrence of `pat` and return the
text that follows it, as `full.match(/pat.../i)` positions a match. -/
def findCI (pat : List Char) : List Char → Option (List Char)
  | [] => none
  | c :: rest =>
    if beginsCI pat (c :: rest) then some ((c :: rest).drop pat.length)
    else findCI pat rest

/-- The capture of `\s*(.*)` applied right after a matched literal: the
greedy `\s*` swallows the maximal whitespace run (newlines included) and
`(.*)` captures up to the next line terminator. -/
def captureAfter (rem : List Char) : List Char :=
  (rem.dropWhile isWS).takeWhile notLineEnd

/-- Python `line.split(c, 1)`: the part before the first `c`, and `some`
rest after it when `c` occurs.  Also models the `[0]` / `[1]` indexing of
JavaScript `split(c, 1)` the source performs under `in` guards. -/
def breakAtFirst (sep : Char) : List Char → List Char × Option (List Char)
  | [] => ([], none)
  | c :: rest =>
    if c == sep then ([], some rest)
    else
      let (a, b) := breakAtFirst sep rest
      (c :: a, b)

/-- Python `str.splitlines` restricted to the line-break characters it
recognises, with `"\r\n"` counted as a single break. -/
def isLineBreak (c : Char) : Bool :=
  c == '\n' || c == '\r' || c == '\x0b' || c == '\x0c' || c == '\x1c' ||
  c == '\x1d' || c == '\x1e' || c == '\x85' || c == '\u2028' || c == '\u2029'

/-- Python `str.splitlines`. -/
def splitlines : List Char → List (List Char)
  | [] => []
  | '\r' :: '\n' :: rest => [] :: splitlines rest
  | c :: rest =>
    if isLineBreak c then [] :: splitlines rest
    else
      match splitlines rest with
      | [] => [[c]]
      | line :: more => (c :: line) :: more

/-- No two adjacent newline characters (the shape that keeps a text clear
of the divider, whose occurrences all start with `"\n\n"`). -/
def noDoubleNL : List Char → Bool
  | [] => true
  | [_] => true
  | a :: b :: rest => !(a == '\n' && b == '\n') && noDoubleNL (b :: rest)

/-! ## The prompt document codec (`DIVIDER`, `getCampaignPrompt`,
`getRecipientFromPrompt`, `ensureCampaignPromptExists`,
`setRecipientLines`, `setCampaignPromptOnly` of `src/app.py`). -/

/-- `const DIVIDER = "\n\n--- CAMPAIGN PROMPT ---\n"`. -/
def DIVIDER : List Char := "\n\n--- CAMPAIGN PROMPT ---\n".data

/-- The tail of the divider after its two leading newlines. -/
def divTail : List Char := "--- CAMPAIGN PROMPT ---\n".data

/-- `getCampaignPrompt`: `full.split(DIVIDER, 2)[1] || ""` when the
document includes the divider (the segment between the first and second
occurrence, the whole tail when the divider occurs once), else `""`. -/
def getCampaignPrompt (full : List Char) : List Char :=
  match splitFirst DIVIDER full with
  | none => []
  | some (_, rest) =>
    match splitFirst DIVIDER rest with
    | none => rest
    | some (mid, _) => mid

/-- The literal matched by `/Recipient Email:\s*(.*)/i`, lower-cased. -/
def patRecipientEmail : List Char := "recipient email:".data

/-- The literal matched by `/Prospect Name:\s*(.*)/i`, lower-cased. -/
def patProspectName : List Char := "prospect name:".data

/-- `getRecipientFromPrompt`: the `(email, name)` captured by the two
regexes, each trimmed, empty when unmatched. -/
def getRecipientFromPrompt (full : List Char) : List Char × List Char :=
  (match findCI patRecipientEmail full with
   | none => []
   | some rem => trim (captureAfter rem),
   match findCI patProspectName full with
   | none => []
   | some rem => trim (captureAfter rem))

/-- The starter campaign text injected on first use. -/
def starterCampaign : List Char :=
  ("Write a short, friendly outreach email offering a free 10 minute " ++
   "Facebook page review and 3 quick improvements. Keep it under 120 " ++
   "words. Close with a simple question asking if they want me to send " ++
   "the 3 improvements.").data

/-- `ensureCampaignPromptExists`: leave the document alone when it already
includes the divider, otherwise replace it wholesale with an empty header,
the divider and the starter campaign. -/
def ensureCampaignPromptExists (doc : List Char) : List Char :=
  if (splitFirst DIVIDER doc).isSome then doc
  else "Recipient Email: \nProspect Name: ".data ++ DIVIDER ++ starterCampaign

/-- `setRecipientLines(email, name)`: ensure the divider, read back the
campaign section, trim it, and rebuild the whole document from the new
recipient lines, the divider and that campaign text. -/
def setRecipientLines (doc email name : List Char) : List Char :=
  let doc' := ensureCampaignPromptExists doc
  let campaign := trim (getCampaignPrompt doc')
  "Recipient Email: ".data ++ email ++
    ('\n' :: ("Prospect Name: ".data ++ name)) ++ DIVIDER ++ campaign

/-- `setCampaignPromptOnly(campaignText)`: ensure the divider, read back
the recipient header, and rebuild the document with that header, the
divider and the trimmed new campaign text. -/
def setCampaignPromptOnly (doc campaignText : List Char) : List Char :=
  let doc' := ensureCampaignPromptExists doc
  let r := getRecipientFromPrompt doc'
  "Recipient Email: ".data ++ r.1 ++
    ('\n' :: ("Prospect Name: ".data ++ r.2)) ++ DIVIDER ++ trim campaignText

/-! ## The prospect list parser (`parse_prospect_lines` of `src/app.py`). -/

/-- One parsed prospect record `{name, email}`. -/
structure Prospect where
  name : List Char
  email : List Char
  deriving DecidableEq, Repr

instance : Inhabited Prospect := ⟨⟨[], []⟩⟩

/-- The `(name, email)` candidate a single stripped, non-blank line yields:
angle-bracket form first, then first-comma split, else the whole line as
the email; both parts stripped at the end as the source re-strips them. -/
def parseLine (line : List Char) : List Char × List Char :=
  let cand :=
    if line.contains '<' && line.contains '>' then
      let r := breakAtFirst '<' line
      let m := breakAtFirst '>' (r.2.getD [])
      (trim r.1, trim m.1)
    else if line.contains ',' then
      let r := breakAtFirst ',' line
      (trim r.1, trim (r.2.getD []))
    else ([], line)
  (trim cand.1, trim cand.2)

/-- The loop body of `parse_prospect_lines`: strip each line, skip blanks,
extract the candidate, drop it unless the email has both `@` and `.`, and
drop later lines whose lower-cased email was already seen. -/
def parseLines : List (List Char) → List (List Char) → List Prospect
  | [], _ => []
  | raw :: rest, seen =>
    let line := trim raw
    if line = [] then parseLines rest seen
    else
      let cand := parseLine line
      if cand.2.contains '@' && cand.2.contains '.' then
        let key := cand.2.map toLowerChar
        if key ∈ seen then parseLines rest seen
        else ⟨cand.1, cand.2⟩ :: parseLines rest (key :: seen)
      else parseLines rest seen

/-- `parse_prospect_lines(text)`. -/
def parse_prospect_lines (text : List Char) : List Prospect :=
  parseLines (splitlines text) []

/-- The stream of valid candidates in input order, before deduplication
(the specification-side view of the parse). -/
def rawCandidates : List (List Char) → List Prospect
  | [] => []
  | raw :: rest =>
    let line := trim raw
    if line = [] then rawCandidates rest
    else
      let cand := parseLine line
      if cand.2.contains '@' && cand.2.contains '.' then
        ⟨cand.1, cand.2⟩ :: rawCandidates rest
      else rawCandidates rest

/-- The lower-cased email, the parser's deduplication key. -/
def lowerKey (p : Prospect) : List Char := p.email.map toLowerChar

/-- Keep the first record for each lower-cased email, preserving order
(the specification-side deduplication). -/
def dedupByKey : List Prospect → List (List Char) → List Prospect
  | [], _ => []
  | p :: rest, seen =>
    if lowerKey p ∈ seen then dedupByKey rest seen
    else p :: dedupByKey rest (lowerKey p :: seen)

/-! ## Template storage (`upsert_template` of `src/app.py`).  The stored
list of templates is passed in and the written-back list (or the raised
error) returned. -/

/-- One stored template `{name, prompt}`. -/
structure Template where
  name : List Char
  prompt : List Char
  deriving DecidableEq, Repr

/-- The in-place overwrite scan of `upsert_template`: replace the first
item whose stripped, lower-cased name equals `key` with the new record,
`none` when no item matches. -/
def upsertReplace (key : List Char) (nm cp : List Char) :
    List Template → Option (List Template)
  | [] => none
  | t :: rest =>
    if (trim t.name).map toLowerChar = key then some (⟨nm, cp⟩ :: rest)
    else
      match upsertReplace key nm cp rest with
      | none => none
      | some l => some (t :: l)

/-- `upsert_template(name, campaign_prompt)` over the stored list `items`:
validate the trimmed fields (raising before any write), then overwrite in
place or insert at the front. -/
def upsert_template (items : List Template) (nameIn promptIn : List Char) :
    Except (List Char) (List Template) :=
  let nm := trim nameIn
  let cp := trim promptIn
  if nm = [] then .error "Template name is required".data
  else if cp = [] then .error "Campaign prompt is required".data
  else
    match upsertReplace (nm.map toLowerChar) nm cp items with
    | some l => .ok l
    | none => .ok (⟨nm, cp⟩ :: items)

/-! ## The send route (`/send` of `src/app.py`).  The SMTP transfer and
the history store are external collaborators: `smtpErr` is `none` on a
successful transfer and `some e` when `send_email_smtp` raises `e`;
`appendFails` says whether `append_sent_history` raises (with message
`appendErr`).  The route's JSON reply and the resulting history list are
returned together. -/

/-- One line of `sent_history.jsonl`. -/
structure HistoryRecord where
  ts : List Char
  toEmail : List Char
  subject : List Char
  body : List Char
  status : List Char
  error : List Char
  deriving DecidableEq, Repr

/-- The `/send` route's observable outcome: the JSON reply's `ok` and
`error` fields and the history list after the request. -/
structure SendResponse where
  ok : Bool
  error : List Char
  history : List HistoryRecord
  deriving DecidableEq, Repr

/-- The `/send` route: strip the three fields, reject if any is empty,
send, log the outcome (`sent` on success, `failed` with the description on
failure), swallowing history-append failures, and reply. -/
def sendRoute (ts : List Char) (smtpErr : Option (List Char))
    (appendFails : Bool) (appendErr : List Char) (hist : List HistoryRecord)
    (toIn subjIn bodyIn : List Char) : SendResponse :=
  let toE := trim toIn
  let subj := trim subjIn
  let body := trim bodyIn
  if toE = [] ∨ subj = [] ∨ body = [] then
    ⟨false, "To, subject, and body are required".data, hist⟩
  else
    match smtpErr with
    | none =>
      if appendFails then ⟨false, appendErr, hist⟩
      else ⟨true, [], hist ++ [⟨ts, toE, subj, body, "sent".data, []⟩]⟩
    | some e =>
      if appendFails then ⟨false, e, hist⟩
      else ⟨false, e, hist ++ [⟨ts, toE, subj, body, "failed".data, e⟩]⟩

/-! ## The Full Automation Queue (`runFullAutomationQueue` of
`src/app.py`).  `generateNow` and `sendNow`'s server reply are external:
`gen i` is the outcome of the generation step run at prospect index `i`
(`ok` plus the draft fields it fills) and `sendOk i` whether the `/send`
call succeeds there; `stopReq i` says whether a stop was requested before
the loop iteration at index `i` runs. -/

/-- The outcome `generateNow` leaves in the email fields. -/
structure GenOut where
  ok : Bool
  toEmail : List Char
  subject : List Char
  body : List Char
  deriving DecidableEq, Repr

/-- What happened at one visited prospect index. -/
inductive AutoEvent
  | genFail
  | missing
  | sendFail
  | sent
  deriving DecidableEq, Repr

/-- How the queue run ended (each failure constructor corresponds to its
own `showBox` message in the source). -/
inductive AutoHalt
  | noProspects
  | stopped
  | genFailed
  | missingFields
  | sendFailed
  | maxReached
  | endOfList
  | loopExit
  deriving DecidableEq, Repr

/-- A finished queue run: one event per visited index, the final
`sentCount`, and how the loop ended. -/
structure AutoRun where
  trace : List (Nat × AutoEvent)
  sentCount : Nat
  halt : AutoHalt
  deriving DecidableEq, Repr

/-- `sendNow` as the queue observes it: its own truthiness check on the
trimmed `to`, trimmed `subject` and untrimmed `body`, then the server
reply. -/
def sendNowOk (serverOk : Bool) (toF subjF bodyF : List Char) : Bool :=
  if trim toF = [] ∨ trim subjF = [] ∨ bodyF = [] then false else serverOk

/-- `maxSends` as validated at start: `parseInt` with 15 for an
empty/non-numeric field, clamped into `[1, 15]`. -/
def clampMax (v : Option Int) : Int :=
  match v with
  | none => 15
  | some x => max 1 (min 15 x)

/-- `delaySeconds` as validated at start: 12 for an empty/non-numeric
field, clamped into `[2, 600]`. -/
def clampDelay (v : Option Int) : Int :=
  match v with
  | none => 12
  | some x => max 2 (min 600 x)

/-- The `to` field value the sanity check and `sendNow` observe at index
`i`: `setActive(i)` writes the prospect's email into the field and
`fillEmailFields` overwrites it only when the draft's `to` is non-empty
(`emailObj.to || to.value`). -/
def autoToField (gen : Nat → GenOut) (ps : List Prospect) (i : Nat) :
    List Char :=
  if (gen i).toEmail = [] then (ps.getD i default).email else (gen i).toEmail

/-- The `while` loop of `runFullAutomationQueue` from index `i` with
`sent` successes so far.  `setActive(i)` puts the prospect's email in the
`to` field, `generateNow` overwrites the fields, the sanity check requires
all three trimmed fields non-empty, `sendNow` dispatches, and a success
either reaches the cap, reaches the end of the list, or waits and moves
on. -/
def autoLoop (gen : Nat → GenOut) (sendOk : Nat → Bool) (stopReq : Nat → Bool)
    (ps : List Prospect) (maxS : Nat) (i sent : Nat) : AutoRun :=
  if stopReq i then ⟨[], sent, .stopped⟩
  else if h1 : sent < maxS ∧ i < ps.length then
    if (gen i).ok = false then ⟨[(i, .genFail)], sent, .genFailed⟩
    else if trim (autoToField gen ps i) = [] ∨ trim (gen i).subject = [] ∨
        trim (gen i).body = [] then
      ⟨[(i, .missing)], sent, .missingFields⟩
    else if sendNowOk (sendOk i) (autoToField gen ps i) (gen i).subject
        (gen i).body = false then
      ⟨[(i, .sendFail)], sent, .sendFailed⟩
    else if maxS ≤ sent + 1 then ⟨[(i, .sent)], sent + 1, .maxReached⟩
    else if h3 : ps.length - 1 ≤ i then ⟨[(i, .sent)], sent + 1, .endOfList⟩
    else
      ⟨(i, .sent) ::
          (autoLoop gen sendOk stopReq ps maxS (i + 1) (sent + 1)).trace,
        (autoLoop gen sendOk stopReq ps maxS (i + 1) (sent + 1)).sentCount,
        (autoLoop gen sendOk stopReq ps maxS (i + 1) (sent + 1)).halt⟩
  else ⟨[], sent, .loopExit⟩
termination_by ps.length - i
decreasing_by
  all_goals simp only [not_le] at h3
  all_goals omega

/-- `runFullAutomationQueue`: refuse an empty prospect list, clamp the
parameters, start from the selected index (0 when none selected, as
`setActive(0)` selects it), and run the loop with `sentCount = 0`. -/
def runFullAutomationQueue (gen : Nat → GenOut) (sendOk : Nat → Bool)
    (stopReq : Nat → Bool) (ps : List Prospect) (maxRaw : Option Int)
    (activeIndex : Int) : AutoRun :=
  if ps.length = 0 then ⟨[], 0, .noProspects⟩
  else
    let maxS := (clampMax maxRaw).toNat
    let i0 := if activeIndex < 0 then 0 else activeIndex.toNat
    autoLoop gen sendOk stopReq ps maxS i0 0

/-! ## Play Mode (`startCycleForCurrentProspect`, `playBtn`, `pauseBtn`
and `approveSendBtn.onclick` of `src/app.py`).  `genOk i` is whether the
generation step at prospect index `i` succeeds and `sendOk` whether the
approved `sendNow` succeeds; the UI state that matters is
`(prospects, activeIndex, playRunning, awaitingApproval)`. -/

/-- The Play Mode controller state. -/
structure PlayState where
  prospects : List Prospect
  activeIndex : Int
  playRunning : Bool
  awaitingApproval : Bool
  deriving DecidableEq, Repr

/-- The observable steps a click sets off. -/
inductive PlayEvent
  | send
  | generate (i : Int)
  deriving DecidableEq, Repr

/-- `setActive(index)` as it affects the controller state. -/
def setActiveS (i : Int) (s : PlayState) : PlayState := { s with activeIndex := i }

/-- `startCycleForCurrentProspect`: refuse an empty list, select index 0
when none selected, clear the approval gate, run the generation step, and
await approval exactly when it succeeded. -/
def startCycleForCurrentProspect (genOk : Int → Bool) (s : PlayState) :
    PlayState × List PlayEvent :=
  if s.prospects.isEmpty then (s, [])
  else if s.activeIndex < 0 then
    if genOk 0 then
      ({ s with activeIndex := 0, awaitingApproval := true }, [.generate 0])
    else ({ s with activeIndex := 0, awaitingApproval := false }, [.generate 0])
  else if genOk s.activeIndex then
    ({ s with awaitingApproval := true }, [.generate s.activeIndex])
  else ({ s with awaitingApproval := false }, [.generate s.activeIndex])

/-- `approveSendBtn.onclick`: refuse without a pending approval, run
`sendNow`, keep the state on a failed send, and on success clear the gate
and either report (Play Mode off), stop at the end of the list, or advance
one prospect and re-run the cycle. -/
def approveClick (genOk : Int → Bool) (sendOk : Bool) (s : PlayState) :
    PlayState × List PlayEvent :=
  if s.awaitingApproval = false then (s, [])
  else if sendOk = false then (s, [.send])
  else if s.playRunning = false then
    ({ s with awaitingApproval := false }, [.send])
  else if (s.prospects.length : Int) - 1 ≤ s.activeIndex then
    ({ s with awaitingApproval := false, playRunning := false }, [.send])
  else
    ((startCycleForCurrentProspect genOk (setActiveS (s.activeIndex + 1)
        { s with awaitingApproval := false })).1,
      .send :: (startCycleForCurrentProspect genOk (setActiveS (s.activeIndex + 1)
        { s with awaitingApproval := false })).2)

/-! ## Helper lemmas about the string primitives. -/

lemma begins_append (p b : List Char) : begins p (p ++ b) = true := by
  induction p with
  | nil => rfl
  | cons c cs ih => simp [begins, ih]

lemma begins_append_right {p l : List Char} (h : begins p l = true)
    (z : List Char) : begins p (l ++ z) = true := by
  induction p generalizing l with
  | nil => rfl
  | cons c cs ih =>
    cases l with
    | nil => simp [begins] at h
    | cons d ds =>
      simp only [begins, Bool.and_eq_true, beq_iff_eq] at h
      simp [begins, h.1, ih h.2]

lemma begins_drop {p s : List Char} (h : begins p s = true) :
    s = p ++ s.drop p.length := by
  induction p generalizing s with
  | nil => simp
  | cons c cs ih =>
    cases s with
    | nil => simp [begins] at h
    | cons d ds =>
      simp only [begins, Bool.and_eq_true, beq_iff_eq] at h
      simpa [h.1] using ih h.2

lemma splitFirst_sound {sep s pre post : List Char}
    (h : splitFirst sep s = some (pre, post)) : s = pre ++ sep ++ post := by
  induction s generalizing pre with
  | nil => simp [splitFirst] at h
  | cons c rest ih =>
    rw [splitFirst] at h
    by_cases hb : begins sep (c :: rest) = true
    · simp only [hb, if_true, Option.some.injEq, Prod.mk.injEq] at h
      obtain ⟨h1, h2⟩ := h
      subst h1; subst h2
      simpa using begins_drop hb
    · simp only [hb, if_false, Bool.not_eq_true] at h
      rw [if_neg (by simp [hb])] at h
      cases hrec : splitFirst sep rest with
      | none => rw [hrec] at h; exact absurd h (by simp)
      | some pq =>
        obtain ⟨p, q⟩ := pq
        rw [hrec] at h
        simp only [Option.some.injEq, Prod.mk.injEq] at h
        obtain ⟨h1, h2⟩ := h
        subst h2
        have := ih hrec
        subst this
        rw [← h1]
        simp

lemma splitFirst_none_no_occ {sep s : List Char} (hsep : sep ≠ [])
    (h : splitFirst sep s = none) : ∀ a b, s ≠ a ++ sep ++ b := by
  induction s with
  | nil =>
    intro a b hab
    rcases List.append_eq_nil.mp hab.symm with ⟨h1, -⟩
    rcases List.append_eq_nil.mp h1 with ⟨-, h2⟩
    exact hsep h2
  | cons c rest ih =>
    intro a b hab
    rw [splitFirst] at h
    by_cases hb : begins sep (c :: rest) = true
    · simp [hb] at h
    · rw [if_neg (by simp [hb])] at h
      cases a with
      | nil =>
        simp only [List.nil_append] at hab
        exact hb (hab ▸ begins_append sep b)
      | cons a0 a' =>
        simp only [List.cons_append, List.cons.injEq] at hab
        cases hrec : splitFirst sep rest with
        | none => exact ih hrec a' b hab.2
        | some pq => rw [hrec] at h; exact absurd h (by simp)

lemma splitFirst_eq_none {sep s : List Char}
    (h : ∀ a b, s ≠ a ++ sep ++ b) : splitFirst sep s = none := by
  cases hs : splitFirst sep s with
  | none => rfl
  | some pq =>
    obtain ⟨p, q⟩ := pq
    exact absurd (splitFirst_sound hs) (h p q)

lemma splitFirst_pre_none {sep s pre post : List Char}
    (h : splitFirst sep s = some (pre, post)) : splitFirst sep pre = none := by
  induction s generalizing pre post with
  | nil => simp [splitFirst] at h
  | cons c rest ih =>
    rw [splitFirst] at h
    by_cases hb : begins sep (c :: rest) = true
    · simp only [hb, if_true, Option.some.injEq, Prod.mk.injEq] at h
      rw [← h.1]
      rfl
    · rw [if_neg (by simp [hb])] at h
      cases hrec : splitFirst sep rest with
      | none => rw [hrec] at h; exact absurd h (by simp)
      | some pq =>
        obtain ⟨p, q⟩ := pq
        rw [hrec] at h
        simp only [Option.some.injEq, Prod.mk.injEq] at h
        obtain ⟨h1, _⟩ := h
        subst h1
        rw [splitFirst]
        have hb2 : begins sep (c :: p) = false := by
          cases hbp : begins sep (c :: p) with
          | false => rfl
          | true =>
            exfalso
            apply hb
            have : (c :: p) ++ (sep ++ q) = c :: rest := by
              have := splitFirst_sound hrec
              simp [this]
            exact this ▸ begins_append_right hbp (sep ++ q)
        rw [if_neg (by simp [hb2]), ih hrec]

lemma DIVIDER_eq : DIVIDER = '\n' :: '\n' :: divTail := rfl

lemma DIVIDER_ne_nil : DIVIDER ≠ [] := by decide

lemma noDoubleNL_of_not_mem {l : List Char} (h : '\n' ∉ l) :
    noDoubleNL l = true := by
  induction l with
  | nil => rfl
  | cons a l ih =>
    have ha : a ≠ '\n' := fun hh => h (hh ▸ List.mem_cons_self a l)
    have hl : '\n' ∉ l := fun hh => h (List.mem_cons_of_mem a hh)
    cases l with
    | nil => rfl
    | cons b m =>
      simp only [noDoubleNL, Bool.and_eq_true, Bool.not_eq_true']
      exact ⟨by simp [ha], ih hl⟩

lemma noDoubleNL_append_left {xs ys : List Char} (hxs : '\n' ∉ xs)
    (hys : noDoubleNL ys = true) : noDoubleNL (xs ++ ys) = true := by
  induction xs with
  | nil => simpa using hys
  | cons a xs ih =>
    have ha : a ≠ '\n' := fun hh => hxs (hh ▸ List.mem_cons_self a xs)
    have hxs' : '\n' ∉ xs := fun hh => hxs (List.mem_cons_of_mem a hh)
    cases hxy : xs ++ ys with
    | nil => rw [List.cons_append, hxy]; rfl
    | cons b m =>
      show noDoubleNL (a :: xs ++ ys) = true
      rw [List.cons_append, hxy]
      simp only [noDoubleNL, Bool.and_eq_true, Bool.not_eq_true']
      refine ⟨by simp [ha], ?_⟩
      rw [← hxy]
      exact ih hxs'

/-- The first occurrence of the divider in `header ++ DIVIDER ++ rest` is
the explicit one as long as the header never has two adjacent newlines:
every occurrence of the divider starts with `"\n\n"`, and an occurrence
half inside the explicit divider is blocked by its third character. -/
lemma splitFirst_DIVIDER_append {a : List Char} (b : List Char)
    (h : noDoubleNL a = true) :
    splitFirst DIVIDER (a ++ (DIVIDER ++ b)) = some (a, b) := by
  induction a with
  | nil =>
    simp only [List.nil_append]
    rw [DIVIDER_eq, List.cons_append, splitFirst]
    rw [← List.cons_append, ← DIVIDER_eq]
    rw [if_pos (begins_append DIVIDER b)]
    simp [List.drop_left]
  | cons c a ih =>
    have hb : begins DIVIDER (c :: (a ++ (DIVIDER ++ b))) = false := by
      rw [DIVIDER_eq]
      by_cases hc : c = '\n'
      · subst hc
        cases a with
        | nil =>
          simp only [List.nil_append, DIVIDER_eq]
          simp [begins, divTail]
        | cons c2 a' =>
          have hc2 : c2 ≠ '\n' := by
            simp only [noDoubleNL, Bool.and_eq_true, Bool.not_eq_true'] at h
            intro hh
            simp [hh] at h
          simp [begins, List.cons_append, hc2, Ne.symm hc2]
      · simp [begins, hc, Ne.symm hc]
    have ha : noDoubleNL a = true := by
      cases a with
      | nil => rfl
      | cons c2 a' =>
        simp only [noDoubleNL, Bool.and_eq_true] at h
        exact h.2
    rw [List.cons_append, splitFirst, if_neg (by simp [hb]), ih ha]

/-! ## Helper lemmas about `trim`. -/

lemma dropWhile_head_false {p : Char → Bool} {l t : List Char} {c : Char}
    (h : l.dropWhile p = c :: t) : p c = false := by
  induction l with
  | nil => simp [List.dropWhile] at h
  | cons a l ih =>
    rw [List.dropWhile_cons] at h
    by_cases hp : p a = true
    · rw [if_pos hp] at h
      exact ih h
    · rw [if_neg hp] at h
      cases h
      simpa using hp

lemma dropWhile_self_idem (p : Char → Bool) (l : List Char) :
    (l.dropWhile p).dropWhile p = l.dropWhile p := by
  cases hd : l.dropWhile p with
  | nil => rfl
  | cons c t =>
    rw [List.dropWhile_cons, if_neg (by simp [dropWhile_head_false hd])]

lemma trimL_decomp (l : List Char) : ∃ u, l = u ++ trimL l :=
  ⟨l.takeWhile isWS, (List.takeWhile_append_dropWhile isWS l).symm⟩

lemma trimR_decomp (l : List Char) : ∃ w, l = trimR l ++ w := by
  refine ⟨(l.reverse.takeWhile isWS).reverse, ?_⟩
  rw [trimR, ← List.reverse_append, List.takeWhile_append_dropWhile,
    List.reverse_reverse]

lemma trim_decomp (l : List Char) : ∃ u w, l = u ++ trim l ++ w := by
  obtain ⟨u, hu⟩ := trimL_decomp l
  obtain ⟨w, hw⟩ := trimR_decomp (trimL l)
  refine ⟨u, w, ?_⟩
  rw [trim, List.append_assoc, ← hw, ← hu]

lemma mem_trim {c : Char} {l : List Char} (h : c ∈ trim l) : c ∈ l := by
  obtain ⟨u, w, hd⟩ := trim_decomp l
  rw [hd]
  simp [h]

lemma trim_head_false {l t : List Char} {c : Char} (h : trim l = c :: t) :
    isWS c = false := by
  obtain ⟨w, hw⟩ := trimR_decomp (trimL l)
  rw [trim] at h
  rw [h] at hw
  have h2 : trimL l = c :: (t ++ w) := by rw [hw]; simp
  exact dropWhile_head_false h2

lemma trimL_of_head_false {l : List Char} {c : Char} {t : List Char}
    (hl : l = c :: t) (hc : isWS c = false) : trimL l = l := by
  rw [hl, trimL, List.dropWhile_cons, if_neg (by simp [hc])]

lemma trimR_trimR (l : List Char) : trimR (trimR l) = trimR l := by
  rw [trimR, trimR, List.reverse_reverse, dropWhile_self_idem]

lemma trim_idem (l : List Char) : trim (trim l) = trim l := by
  rw [trim, trim]
  have h1 : trimL (trimR (trimL l)) = trimR (trimL l) := by
    cases ht : trimR (trimL l) with
    | nil => rfl
    | cons c t =>
      have hc : isWS c = false := by
        obtain ⟨w, hw⟩ := trimR_decomp (trimL l)
        rw [ht] at hw
        have h2 : trimL l = c :: (t ++ w) := by rw [hw]; simp
        exact dropWhile_head_false h2
      exact trimL_of_head_false rfl hc
  rw [h1, trimR_trimR]

lemma trim_eq_self_of_trim {x l : List Char} (h : trim x = l) : trim l = l := by
  rw [← h, trim_idem]

/-! ## Helper lemmas about `takeWhile` and the capture. -/

lemma takeWhile_append_stop {p : Char → Bool} {a : List Char} {c : Char}
    (z : List Char) (ha : ∀ x ∈ a, p x = true) (hc : p c = false) :
    (a ++ c :: z).takeWhile p = a := by
  induction a with
  | nil => simp [List.takeWhile_cons, hc]
  | cons x a ih =>
    rw [List.cons_append, List.takeWhile_cons,
      if_pos (ha x (List.mem_cons_self x a))]
    rw [ih fun y hy => ha y (List.mem_cons_of_mem x hy)]

lemma dropWhile_cons_of_false {p : Char → Bool} {c : Char} (l : List Char)
    (hc : p c = false) : (c :: l).dropWhile p = c :: l := by
  rw [List.dropWhile_cons, if_neg (by simp [hc])]

/-! ## Helper lemmas about case-insensitive matching. -/

lemma beginsCI_split (pat t s : List Char) :
    beginsCI pat (t ++ s) =
      (beginsCI (pat.take t.length) t && beginsCI (pat.drop t.length) s) := by
  induction t generalizing pat with
  | nil => simp [beginsCI]
  | cons c t' ih =>
    cases pat with
    | nil => simp [beginsCI]
    | cons p ps =>
      simp only [List.cons_append, beginsCI, List.length_cons, List.take_succ_cons,
        List.drop_succ_cons, Bool.and_assoc]
      rw [show t'.append s = t' ++ s from rfl, ih ps]

lemma findCI_none_no_begins {pat l : List Char} (hp : pat ≠ [])
    (h : findCI pat l = none) : ∀ a b, l = a ++ b → beginsCI pat b = false := by
  induction l with
  | nil =>
    intro a b hab
    rcases List.append_eq_nil.mp hab.symm with ⟨-, h2⟩
    subst h2
    cases pat with
    | nil => exact absurd rfl hp
    | cons p ps => rfl
  | cons c rest ih =>
    intro a b hab
    rw [findCI] at h
    by_cases hb : beginsCI pat (c :: rest) = true
    · simp [hb] at h
    · rw [if_neg (by simp [hb])] at h
      cases a with
      | nil =>
        simp only [List.nil_append] at hab
        subst hab
        simpa using hb
      | cons a0 a' =>
        simp only [List.cons_append, List.cons.injEq] at hab
        exact ih h a' b hab.2

lemma findCI_append_none {pat : List Char} (a s : List Char)
    (h : ∀ t b, a = t ++ b → b ≠ [] → beginsCI pat (b ++ s) = false) :
    findCI pat (a ++ s) = findCI pat s := by
  induction a with
  | nil => rfl
  | cons c a' ih =>
    rw [List.cons_append, findCI]
    have hb : beginsCI pat (c :: (a' ++ s)) = false := by
      have := h [] (c :: a') rfl (by simp)
      simpa using this
    rw [if_neg (by simp [hb])]
    exact ih fun t b htb hbne => h (c :: t) b (by simp [htb]) hbne

lemma beginsCI_take_of_append {pat b s : List Char}
    (h : beginsCI pat (b ++ s) = true) :
    beginsCI (pat.take b.length) b = true := by
  rw [beginsCI_split] at h
  exact (Bool.and_eq_true _ _ |>.mp h).1

lemma beginsCI_drop_of_append {pat b s : List Char}
    (h : beginsCI pat (b ++ s) = true) :
    beginsCI (pat.drop b.length) s = true := by
  rw [beginsCI_split] at h
  exact (Bool.and_eq_true _ _ |>.mp h).2

/-- A case-insensitive occurrence cannot run into a character no pattern
character can match (used with `'\n'`, which separates the header lines
from everything the patterns could match across). -/
lemma beginsCI_short_blocked {pat b : List Char} {c : Char} (s : List Char)
    (hlen : b.length < pat.length)
    (hc : ∀ x ∈ pat, (toLowerChar x == toLowerChar c) = false) :
    beginsCI pat (b ++ c :: s) = false := by
  cases hb : beginsCI pat (b ++ c :: s) with
  | false => rfl
  | true =>
    exfalso
    have hd := beginsCI_drop_of_append hb
    cases hdrop : pat.drop b.length with
    | nil =>
      rw [List.drop_eq_nil_iff] at hdrop
      omega
    | cons q qs =>
      rw [hdrop] at hd
      simp only [beginsCI, Bool.and_eq_true] at hd
      have hq : q ∈ pat := List.drop_subset _ pat (hdrop ▸ List.mem_cons_self q qs)
      have := hc q hq
      rw [hd.1] at this
      exact Bool.true_eq_false.mp this

/-! ## Codec-level helper lemmas. -/

lemma getCampaignPrompt_no_occ (full : List Char) :
    ∀ a b, getCampaignPrompt full ≠ a ++ DIVIDER ++ b := by
  intro a b
  simp only [getCampaignPrompt]
  split
  · intro heq
    rcases List.append_eq_nil.mp heq.symm with ⟨h3, -⟩
    rcases List.append_eq_nil.mp h3 with ⟨-, h4⟩
    exact DIVIDER_ne_nil h4
  · split
    all_goals rename_i h2
    · exact splitFirst_none_no_occ DIVIDER_ne_nil h2 a b
    · exact splitFirst_none_no_occ DIVIDER_ne_nil (splitFirst_pre_none h2) a b

lemma trim_no_occ {sep l : List Char} (h : ∀ a b, l ≠ a ++ sep ++ b) :
    ∀ a b, trim l ≠ a ++ sep ++ b := by
  intro a b heq
  obtain ⟨u, w, hd⟩ := trim_decomp l
  refine h (u ++ a) (b ++ w) ?_
  rw [hd, heq]
  simp [List.append_assoc]

lemma getCampaignPrompt_append {a : List Char} (b : List Char)
    (ha : noDoubleNL a = true) (hb : splitFirst DIVIDER b = none) :
    getCampaignPrompt (a ++ (DIVIDER ++ b)) = b := by
  simp only [getCampaignPrompt, splitFirst_DIVIDER_append b ha, hb]

lemma getCampaignPrompt_append₂ {a b : List Char} (c : List Char)
    (ha : noDoubleNL a = true) (hb : noDoubleNL b = true) :
    getCampaignPrompt (a ++ (DIVIDER ++ (b ++ (DIVIDER ++ c)))) = b := by
  simp only [getCampaignPrompt, splitFirst_DIVIDER_append (b ++ (DIVIDER ++ c)) ha,
    splitFirst_DIVIDER_append c hb]

lemma noDoubleNL_cons_cons {a b : Char} {l : List Char}
    (hab : (a == '\n' && b == '\n') = false) (h : noDoubleNL (b :: l) = true) :
    noDoubleNL (a :: b :: l) = true := by
  show (!(a == '\n' && b == '\n') && noDoubleNL (b :: l)) = true
  rw [hab, h]
  rfl

lemma header_noDoubleNL {e n : List Char} (he : '\n' ∉ e) (hn : '\n' ∉ n) :
    noDoubleNL ("Recipient Email: ".data ++ e ++
      ('\n' :: ("Prospect Name: ".data ++ n))) = true := by
  apply noDoubleNL_append_left
  · intro hmem
    rcases List.mem_append.mp hmem with h1 | h1
    · exact absurd h1 (by decide)
    · exact he h1
  · show noDoubleNL ('\n' :: ("Prospect Name: ".data ++ n)) = true
    have h2 : noDoubleNL ("Prospect Name: ".data ++ n) = true := by
      apply noDoubleNL_append_left _ (noDoubleNL_of_not_mem hn)
      decide
    rw [show ("Prospect Name: ".data ++ n) =
      'P' :: ("rospect Name: ".data ++ n) from rfl] at h2 ⊢
    exact noDoubleNL_cons_cons (by decide) h2

/-! ## Claim C1: `setRecipientLines` and the campaign body. -/

/-- C1 (amended): merging a new recipient preserves the campaign body only
up to whitespace trimming — `setRecipientLines` re-inserts the body it
read back after `.trim()`, so extracting the campaign body afterwards
returns the previous body with surrounding whitespace removed, provided
the divider is already present in the document (no first-use bootstrap)
and the new email and name contain no newline. -/
theorem setRecipientLines_preserves_trimmed_body (D e2 n2 : List Char)
    (hd : (splitFirst DIVIDER D).isSome = true)
    (he : '\n' ∉ e2) (hn : '\n' ∉ n2) :
    getCampaignPrompt (setRecipientLines D e2 n2) =
      trim (getCampaignPrompt D) := by
  have hens : ensureCampaignPromptExists D = D := by
    simp only [ensureCampaignPromptExists]
    rw [if_pos hd]
  show getCampaignPrompt ("Recipient Email: ".data ++ e2 ++
      ('\n' :: ("Prospect Name: ".data ++ n2)) ++ DIVIDER ++
      trim (getCampaignPrompt (ensureCampaignPromptExists D))) = _
  rw [hens]
  have hshape : "Recipient Email: ".data ++ e2 ++
      ('\n' :: ("Prospect Name: ".data ++ n2)) ++ DIVIDER ++
      trim (getCampaignPrompt D) =
      ("Recipient Email: ".data ++ e2 ++
        ('\n' :: ("Prospect Name: ".data ++ n2))) ++
      (DIVIDER ++ trim (getCampaignPrompt D)) := by
    simp [List.append_assoc]
  rw [hshape]
  exact getCampaignPrompt_append _ (header_noDoubleNL he hn)
    (splitFirst_eq_none (trim_no_occ (getCampaignPrompt_no_occ D)))

/-- C1 witness: the amended statement at a concrete document whose body is
`"hi "`. -/
theorem setRecipientLines_preserves_trimmed_body_witness :
    getCampaignPrompt (setRecipientLines ("H".data ++ (DIVIDER ++ "hi ".data))
        "a@b.c".data "Ann".data) =
      trim (getCampaignPrompt ("H".data ++ (DIVIDER ++ "hi ".data))) :=
  setRecipientLines_preserves_trimmed_body _ _ _ (by decide) (by decide)
    (by decide)

/-- C1 counterexample: for the document with campaign body `"hi "` the
merge yields body `"hi"`, so the body is not returned verbatim. -/
theorem setRecipientLines_body_not_verbatim_cex :
    getCampaignPrompt (setRecipientLines ("H".data ++ (DIVIDER ++ "hi ".data))
        "a@b.c".data "Ann".data) ≠
      getCampaignPrompt ("H".data ++ (DIVIDER ++ "hi ".data)) := by decide

/-! ## Claim C7: `getCampaignPrompt` and the divider. -/

/-- C7 (amended): when the divider is absent the extracted campaign body
is empty; when it occurs exactly once the entire text after it is
returned; but when it occurs more than once only the text between the
first and second occurrence is returned (`split(DIVIDER, 2)[1]`
truncates at the second occurrence), not the entire text after the first. -/
theorem getCampaignPrompt_divider_cases :
    (∀ doc, splitFirst DIVIDER doc = none → getCampaignPrompt doc = []) ∧
    (∀ a b, noDoubleNL a = true → splitFirst DIVIDER b = none →
      getCampaignPrompt (a ++ (DIVIDER ++ b)) = b) ∧
    (∀ a b c, noDoubleNL a = true → noDoubleNL b = true →
      getCampaignPrompt (a ++ (DIVIDER ++ (b ++ (DIVIDER ++ c)))) = b) := by
  refine ⟨?_, ?_, ?_⟩
  · intro doc h
    simp [getCampaignPrompt, h]
  · intro a b ha hb
    exact getCampaignPrompt_append b ha hb
  · intro a b c ha hb
    exact getCampaignPrompt_append₂ c ha hb

/-- C7 counterexample: with two occurrences of the divider the function
returns only the segment between them, not the whole text after the first
occurrence. -/
theorem getCampaignPrompt_second_divider_cex :
    getCampaignPrompt
        ("A".data ++ (DIVIDER ++ ("B".data ++ (DIVIDER ++ "C".data)))) ≠
      "B".data ++ (DIVIDER ++ "C".data) ∧
    getCampaignPrompt
        ("A".data ++ (DIVIDER ++ ("B".data ++ (DIVIDER ++ "C".data)))) =
      "B".data := by decide

/-! ## Claim C8: `setCampaignPromptOnly` and the recipient header. -/

lemma findCI_of_begins {pat s : List Char} (hne : s ≠ [])
    (h : beginsCI pat s = true) :
    findCI pat s = some (s.drop pat.length) := by
  cases s with
  | nil => exact absurd rfl hne
  | cons c rest => simp [findCI, h]

lemma findCI_cons_of_false {pat : List Char} {c : Char} (rest : List Char)
    (h : beginsCI pat (c :: rest) = false) :
    findCI pat (c :: rest) = findCI pat rest := by
  simp [findCI, h]

lemma dropWhile_isWS_space (X : List Char) :
    (' ' :: X).dropWhile isWS = X.dropWhile isWS := by
  rw [List.dropWhile_cons, if_pos (by decide)]

/-- The capture of `\s*(.*)` right after `": "` is exactly the trimmed,
newline-free text that follows, up to the next line terminator. -/
lemma captureAfter_space (x y : List Char) (hx0 : x ≠ [])
    (hxT : trim x = x) (hxL : ∀ c ∈ x, notLineEnd c = true) :
    captureAfter (' ' :: (x ++ '\n' :: y)) = x := by
  obtain ⟨c0, x1, hxc⟩ : ∃ c0 x1, x = c0 :: x1 := by
    cases x with
    | nil => exact absurd rfl hx0
    | cons c0 x1 => exact ⟨c0, x1, rfl⟩
  have hc0 : isWS c0 = false := trim_head_false (hxT.trans hxc)
  rw [captureAfter, dropWhile_isWS_space]
  rw [hxc, List.cons_append, dropWhile_cons_of_false _ hc0, ← List.cons_append,
    ← hxc]
  exact takeWhile_append_stop _ hxL (by decide)

/-- No case-insensitive occurrence of `pat` starts inside `a ++ e` when
none starts inside `e`, every proper overhang is blocked by the `'\n'`
that follows, and every non-empty suffix of the literal `a` disagrees
with the pattern within its own length. -/
lemma findCI_skip_region {pat : List Char} (a e z : List Char)
    (hp : pat ≠ [])
    (hnl : ∀ x ∈ pat, (toLowerChar x == toLowerChar '\n') = false)
    (ha : ∀ b ∈ a.tails, b ≠ [] → beginsCI (pat.take b.length) b = false)
    (he : findCI pat e = none) :
    findCI pat (a ++ (e ++ '\n' :: z)) = findCI pat ('\n' :: z) := by
  have step1 : findCI pat (a ++ (e ++ '\n' :: z)) =
      findCI pat (e ++ '\n' :: z) := by
    apply findCI_append_none
    intro t b htb hbne
    cases hbg : beginsCI pat (b ++ (e ++ '\n' :: z)) with
    | false => rfl
    | true =>
      exfalso
      have hmem : b ∈ a.tails := (List.mem_tails _ _).mpr ⟨t, htb.symm⟩
      have := ha b hmem hbne
      rw [beginsCI_take_of_append hbg] at this
      exact Bool.true_eq_false.mp this
  rw [step1]
  apply findCI_append_none
  intro t b htb hbne
  by_cases hlen : pat.length ≤ b.length
  · cases hbg : beginsCI pat (b ++ '\n' :: z) with
    | false => rfl
    | true =>
      exfalso
      have h1 := beginsCI_take_of_append hbg
      rw [List.take_of_length_le hlen] at h1
      have h2 := findCI_none_no_begins hp he t b htb
      rw [h1] at h2
      exact Bool.true_eq_false.mp h2
  · exact beginsCI_short_blocked z (by omega) hnl

/-- Header extraction from a freshly rebuilt document: with a non-empty,
trimmed, newline-free email that does not itself contain the
prospect-name marker and a non-empty, trimmed, newline-free name, the two
regexes read back exactly the header fields. -/
lemma getRecipientFromPrompt_header (e n w : List Char)
    (he0 : e ≠ []) (hn0 : n ≠ [])
    (heT : trim e = e) (hnT : trim n = n)
    (heL : ∀ c ∈ e, notLineEnd c = true) (hnL : ∀ c ∈ n, notLineEnd c = true)
    (heP : findCI patProspectName e = none) :
    getRecipientFromPrompt ("Recipient Email: ".data ++
      (e ++ ('\n' :: ("Prospect Name: ".data ++ (n ++ '\n' :: w))))) =
      (e, n) := by
  have hemail : findCI patRecipientEmail ("Recipient Email: ".data ++
      (e ++ ('\n' :: ("Prospect Name: ".data ++ (n ++ '\n' :: w))))) =
      some (' ' :: (e ++ ('\n' :: ("Prospect Name: ".data ++
        (n ++ '\n' :: w))))) := by
    rw [show "Recipient Email: ".data ++
        (e ++ ('\n' :: ("Prospect Name: ".data ++ (n ++ '\n' :: w)))) =
        "Recipient Email:".data ++
        (' ' :: (e ++ ('\n' :: ("Prospect Name: ".data ++ (n ++ '\n' :: w)))))
      from rfl]
    have hbg : beginsCI patRecipientEmail ("Recipient Email:".data ++
        (' ' :: (e ++ ('\n' :: ("Prospect Name: ".data ++
          (n ++ '\n' :: w)))))) = true := by
      rw [beginsCI_split]
      have h1 : beginsCI (patRecipientEmail.take
          ("Recipient Email:".data).length) "Recipient Email:".data = true := by
        decide
      rw [h1, show patRecipientEmail.drop ("Recipient Email:".data).length = []
        from rfl]
      rfl
    rw [findCI_of_begins (by simp) hbg,
      show patRecipientEmail.length = ("Recipient Email:".data).length from rfl,
      List.drop_left]
  have hname : findCI patProspectName ("Recipient Email: ".data ++
      (e ++ ('\n' :: ("Prospect Name: ".data ++ (n ++ '\n' :: w))))) =
      some (' ' :: (n ++ '\n' :: w)) := by
    rw [findCI_skip_region "Recipient Email: ".data e
      ("Prospect Name: ".data ++ (n ++ '\n' :: w)) (by decide) (by decide)
      (by decide) heP]
    have hnlhead : beginsCI patProspectName
        ('\n' :: ("Prospect Name: ".data ++ (n ++ '\n' :: w))) = false := by
      show (toLowerChar 'p' == toLowerChar '\n' &&
        beginsCI "rospect name:".data ("Prospect Name: ".data ++
          (n ++ '\n' :: w))) = false
      rw [show (toLowerChar 'p' == toLowerChar '\n') = false from by decide]
      rfl
    rw [findCI_cons_of_false _ hnlhead]
    rw [show "Prospect Name: ".data ++ (n ++ '\n' :: w) =
      "Prospect Name:".data ++ (' ' :: (n ++ '\n' :: w)) from rfl]
    have hbg2 : beginsCI patProspectName ("Prospect Name:".data ++
        (' ' :: (n ++ '\n' :: w))) = true := by
      rw [beginsCI_split]
      have h1 : beginsCI (patProspectName.take
          ("Prospect Name:".data).length) "Prospect Name:".data = true := by
        decide
      rw [h1, show patProspectName.drop ("Prospect Name:".data).length = []
        from rfl]
      rfl
    rw [findCI_of_begins (by simp) hbg2,
      show patProspectName.length = ("Prospect Name:".data).length from rfl,
      List.drop_left]
  simp only [getRecipientFromPrompt, hemail, hname]
  rw [captureAfter_space e ("Prospect Name: ".data ++ (n ++ '\n' :: w))
    he0 heT heL]
  rw [captureAfter_space n w hn0 hnT hnL]
  rw [heT, hnT]

lemma recipient_component_trim (o : Option (List Char)) :
    trim (match o with
          | none => ([] : List Char)
          | some rem => trim (captureAfter rem)) =
      (match o with
       | none => ([] : List Char)
       | some rem => trim (captureAfter rem)) := by
  cases o with
  | none => rfl
  | some rem => exact trim_idem _

lemma recipient_component_notLineEnd (o : Option (List Char)) :
    ∀ c ∈ (match o with
           | none => ([] : List Char)
           | some rem => trim (captureAfter rem)), notLineEnd c = true := by
  cases o with
  | none => intro c hc; simp at hc
  | some rem =>
    intro c hc
    exact List.mem_takeWhile_imp (mem_trim hc)

lemma getRecipient_fst_trim (D : List Char) :
    trim (getRecipientFromPrompt D).1 = (getRecipientFromPrompt D).1 :=
  recipient_component_trim (findCI patRecipientEmail D)

lemma getRecipient_snd_trim (D : List Char) :
    trim (getRecipientFromPrompt D).2 = (getRecipientFromPrompt D).2 :=
  recipient_component_trim (findCI patProspectName D)

lemma getRecipient_fst_notLineEnd (D : List Char) :
    ∀ c ∈ (getRecipientFromPrompt D).1, notLineEnd c = true :=
  recipient_component_notLineEnd (findCI patRecipientEmail D)

lemma getRecipient_snd_notLineEnd (D : List Char) :
    ∀ c ∈ (getRecipientFromPrompt D).2, notLineEnd c = true :=
  recipient_component_notLineEnd (findCI patProspectName D)

/-- C8 (amended): replacing the campaign body preserves the recipient
header provided the divider is already present, both extracted header
fields are non-empty, and the extracted email does not itself contain the
`"prospect name:"` marker.  (With an empty field the greedy `\s*` of the
reading regex runs across the line break and the header is not read back
unchanged.) -/
theorem setCampaignPromptOnly_preserves_header (D b2 : List Char)
    (hd : (splitFirst DIVIDER D).isSome = true)
    (he0 : (getRecipientFromPrompt D).1 ≠ [])
    (hn0 : (getRecipientFromPrompt D).2 ≠ [])
    (heP : findCI patProspectName (getRecipientFromPrompt D).1 = none) :
    getRecipientFromPrompt (setCampaignPromptOnly D b2) =
      getRecipientFromPrompt D := by
  have hens : ensureCampaignPromptExists D = D := by
    simp only [ensureCampaignPromptExists]
    rw [if_pos hd]
  show getRecipientFromPrompt ("Recipient Email: ".data ++
      (getRecipientFromPrompt (ensureCampaignPromptExists D)).1 ++
      ('\n' :: ("Prospect Name: ".data ++
        (getRecipientFromPrompt (ensureCampaignPromptExists D)).2)) ++
      DIVIDER ++ trim b2) = getRecipientFromPrompt D
  rw [hens]
  have hshape : "Recipient Email: ".data ++ (getRecipientFromPrompt D).1 ++
      ('\n' :: ("Prospect Name: ".data ++ (getRecipientFromPrompt D).2)) ++
      DIVIDER ++ trim b2 =
      "Recipient Email: ".data ++ ((getRecipientFromPrompt D).1 ++
        ('\n' :: ("Prospect Name: ".data ++ ((getRecipientFromPrompt D).2 ++
          '\n' :: ('\n' :: (divTail ++ trim b2)))))) := by
    rw [DIVIDER_eq]
    simp [List.append_assoc]
  rw [hshape]
  rw [getRecipientFromPrompt_header _ _ _ he0 hn0 (getRecipient_fst_trim D)
    (getRecipient_snd_trim D) (getRecipient_fst_notLineEnd D)
    (getRecipient_snd_notLineEnd D) heP]

/-- C8 witness: a well-formed document round-trips its header across a
body replacement. -/
theorem setCampaignPromptOnly_preserves_header_witness :
    getRecipientFromPrompt (setCampaignPromptOnly
        ("Recipient Email: a@b.c\nProspect Name: Bob".data ++
          (DIVIDER ++ "hello".data)) " new body ".data) =
      getRecipientFromPrompt
        ("Recipient Email: a@b.c\nProspect Name: Bob".data ++
          (DIVIDER ++ "hello".data)) :=
  setCampaignPromptOnly_preserves_header _ _ (by decide) (by decide)
    (by decide) (by decide)

/-- C8 counterexample: a document whose header has an empty email field
(no `Recipient Email:` line) extracts to `("", "Bob")`, but after
replacing the campaign body the extracted email becomes
`"Prospect Name: Bob"` — the header is not preserved. -/
theorem setCampaignPromptOnly_header_cex :
    getRecipientFromPrompt
        ("Prospect Name: Bob".data ++ (DIVIDER ++ "hello".data)) =
      ([], "Bob".data) ∧
    getRecipientFromPrompt (setCampaignPromptOnly
        ("Prospect Name: Bob".data ++ (DIVIDER ++ "hello".data)) "x".data) ≠
      ([], "Bob".data) := by decide

/-! ## Claims C4 and C6: the prospect list parser. -/

lemma parseLines_eq_dedup (ls : List (List Char)) :
    ∀ seen, parseLines ls seen = dedupByKey (rawCandidates ls) seen := by
  induction ls with
  | nil => intro seen; rfl
  | cons raw rest ih =>
    intro seen
    simp only [parseLines, rawCandidates]
    by_cases hb : trim raw = []
    · rw [if_pos hb, if_pos hb, ih]
    · rw [if_neg hb, if_neg hb]
      by_cases hv : ((parseLine (trim raw)).2.contains '@' &&
          (parseLine (trim raw)).2.contains '.') = true
      · rw [if_pos hv, if_pos hv]
        simp only [dedupByKey, lowerKey]
        by_cases hk : (parseLine (trim raw)).2.map toLowerChar ∈ seen
        · rw [if_pos hk, if_pos hk, ih]
        · rw [if_neg hk, if_neg hk, ih]
      · rw [if_neg hv, if_neg hv, ih]

lemma dedupByKey_nodup (l : List Prospect) :
    ∀ seen, ((dedupByKey l seen).map lowerKey).Nodup ∧
      ∀ p ∈ dedupByKey l seen, lowerKey p ∉ seen := by
  induction l with
  | nil =>
    intro seen
    exact ⟨List.nodup_nil, by simp [dedupByKey]⟩
  | cons p rest ih =>
    intro seen
    simp only [dedupByKey]
    by_cases hk : lowerKey p ∈ seen
    · rw [if_pos hk]
      exact ih seen
    · rw [if_neg hk]
      obtain ⟨h1, h2⟩ := ih (lowerKey p :: seen)
      refine ⟨?_, ?_⟩
      · simp only [List.map_cons, List.nodup_cons]
        refine ⟨?_, h1⟩
        intro hmem
        obtain ⟨q, hq, hqk⟩ := List.mem_map.mp hmem
        exact h2 q hq (hqk ▸ List.mem_cons_self _ _)
      · intro q hq
        rcases List.mem_cons.mp hq with h | h
        · subst h; exact hk
        · exact fun hmem2 => h2 q h (List.mem_cons_of_mem _ hmem2)

/-- C4: the parser equals "collect the valid candidates in input order,
then keep the first record for each lower-cased email"; its output never
repeats a lower-cased email; and the given scenario parses as claimed. -/
theorem parse_prospect_lines_dedup :
    (∀ text, parse_prospect_lines text =
      dedupByKey (rawCandidates (splitlines text)) []) ∧
    (∀ text, ((parse_prospect_lines text).map lowerKey).Nodup) ∧
    parse_prospect_lines "Jane, jane@biz.com\njane@biz.com\nbob@biz.com".data =
      [⟨"Jane".data, "jane@biz.com".data⟩, ⟨[], "bob@biz.com".data⟩] := by
  refine ⟨fun text => parseLines_eq_dedup _ [], fun text => ?_, by decide⟩
  rw [parse_prospect_lines, parseLines_eq_dedup]
  exact (dedupByKey_nodup _ []).1

/-- C6 (amended): for a non-blank line containing a comma (and not both
`<` and `>`), the parser always splits at the first comma and uses both
trimmed parts as `(name, email)` — even when a part is empty.  There is
no fall-through to the whole-line rule: an empty email part simply fails
the `@`/`.` validation later. -/
theorem parseLine_comma_split (line a b : List Char)
    (hc : line.contains ',' = true)
    (hab : (line.contains '<' && line.contains '>') = false)
    (hsplit : breakAtFirst ',' line = (a, some b)) :
    parseLine line = (trim a, trim b) := by
  simp only [parseLine]
  rw [if_neg (by rw [hab]; exact Bool.false_ne_true), if_pos hc, hsplit]
  simp only [Option.getD_some]
  rw [trim_idem, trim_idem]

/-- C6 witness: the comma rule at a concrete line. -/
theorem parseLine_comma_split_witness :
    parseLine "Jane, jane@biz.com".data =
      ("Jane".data, "jane@biz.com".data) := by
  rw [parseLine_comma_split "Jane, jane@biz.com".data "Jane".data
    " jane@biz.com".data (by decide) (by decide) (by decide)]
  decide

/-- C6 counterexample: the line `",jane@biz.com"` splits into an empty
name and the email, and is kept — the claimed fall-through (which would
make the whole line the email candidate and keep `",jane@biz.com"`)
does not happen. -/
theorem parseLine_comma_no_fallthrough_cex :
    parse_prospect_lines ",jane@biz.com".data =
      [⟨[], "jane@biz.com".data⟩] ∧
    parse_prospect_lines ",jane@biz.com".data ≠
      [⟨[], ",jane@biz.com".data⟩] := by decide

/-! ## Claim C10: `upsert_template`. -/

lemma upsertReplace_eq_none {key nm cp : List Char} (items : List Template)
    (h : ∀ t ∈ items, (trim t.name).map toLowerChar ≠ key) :
    upsertReplace key nm cp items = none := by
  induction items with
  | nil => rfl
  | cons t rest ih =>
    simp only [upsertReplace]
    rw [if_neg (h t (List.mem_cons_self t rest)),
      ih fun u hu => h u (List.mem_cons_of_mem t hu)]

lemma upsertReplace_eq_some {key nm cp : List Char} (pre : List Template)
    (t : Template) (post : List Template)
    (hpre : ∀ u ∈ pre, (trim u.name).map toLowerChar ≠ key)
    (ht : (trim t.name).map toLowerChar = key) :
    upsertReplace key nm cp (pre ++ t :: post) =
      some (pre ++ ⟨nm, cp⟩ :: post) := by
  induction pre with
  | nil => simp only [List.nil_append, upsertReplace, if_pos ht]
  | cons u pre' ih =>
    simp only [List.cons_append, upsertReplace]
    rw [if_neg (hpre u (List.mem_cons_self u pre')),
      show pre'.append (t :: post) = pre' ++ t :: post from rfl,
      ih fun v hv => hpre v (List.mem_cons_of_mem u hv)]

/-- C10 (amended): the upsert validates the trimmed name and prompt and
raises before any write; otherwise it stores the trimmed pair, and the
overwrite-in-place happens exactly when some stored item's
whitespace-trimmed, lower-cased name equals the trimmed, lower-cased new
name (the first such item is replaced in place, position preserved);
with no such item the new pair is inserted at the front. -/
theorem upsert_template_spec :
    (∀ items nameIn promptIn, trim nameIn = [] →
      upsert_template items nameIn promptIn =
        .error "Template name is required".data) ∧
    (∀ items nameIn promptIn, trim nameIn ≠ [] → trim promptIn = [] →
      upsert_template items nameIn promptIn =
        .error "Campaign prompt is required".data) ∧
    (∀ items nameIn promptIn, trim nameIn ≠ [] → trim promptIn ≠ [] →
      (∀ t ∈ items, (trim t.name).map toLowerChar ≠
        (trim nameIn).map toLowerChar) →
      upsert_template items nameIn promptIn =
        .ok (⟨trim nameIn, trim promptIn⟩ :: items)) ∧
    (∀ pre t post nameIn promptIn, trim nameIn ≠ [] → trim promptIn ≠ [] →
      (∀ u ∈ pre, (trim u.name).map toLowerChar ≠
        (trim nameIn).map toLowerChar) →
      (trim t.name).map toLowerChar = (trim nameIn).map toLowerChar →
      upsert_template (pre ++ t :: post) nameIn promptIn =
        .ok (pre ++ ⟨trim nameIn, trim promptIn⟩ :: post)) := by
  refine ⟨?_, ?_, ?_, ?_⟩
  · intro items nameIn promptIn h
    simp only [upsert_template]
    rw [if_pos h]
  · intro items nameIn promptIn h1 h2
    simp only [upsert_template]
    rw [if_neg h1, if_pos h2]
  · intro items nameIn promptIn h1 h2 h3
    simp only [upsert_template]
    rw [if_neg h1, if_neg h2, upsertReplace_eq_none items h3]
  · intro pre t post nameIn promptIn h1 h2 hpre ht
    simp only [upsert_template]
    rw [if_neg h1, if_neg h2, upsertReplace_eq_some pre t post hpre ht]

/-- C10 counterexample: a stored name `" x "` differs from the new name
`"x"` case-insensitively (they differ by whitespace), so the claim as
stated predicts an insert at the front; the code nevertheless overwrites
in place, because it compares names whitespace-trimmed. -/
theorem upsert_template_trimmed_match_cex :
    upsert_template [⟨" x ".data, "p".data⟩] "x".data "q".data =
      .ok [⟨"x".data, "q".data⟩] ∧
    " x ".data.map toLowerChar ≠ "x".data.map toLowerChar ∧
    (Except.ok [⟨"x".data, "q".data⟩] : Except (List Char) (List Template)) ≠
      .ok [⟨"x".data, "q".data⟩, ⟨" x ".data, "p".data⟩] := by decide

/-! ## Claim C9: the `/send` route. -/

/-- C9: when the three stripped fields are non-empty and the mail
transfer fails with description `e`, the route appends a `failed` history
record carrying `e` (when the history store works), and the reply is
`ok = false` with error `e` whether or not the history append itself
fails — a history failure is swallowed and never changes the result. -/
theorem sendRoute_failure_logging (ts e appendErr : List Char)
    (hist : List HistoryRecord) (toIn subjIn bodyIn : List Char)
    (h1 : trim toIn ≠ []) (h2 : trim subjIn ≠ []) (h3 : trim bodyIn ≠ []) :
    sendRoute ts (some e) false appendErr hist toIn subjIn bodyIn =
      ⟨false, e, hist ++ [⟨ts, trim toIn, trim subjIn, trim bodyIn,
        "failed".data, e⟩]⟩ ∧
    ∀ af, (sendRoute ts (some e) af appendErr hist toIn subjIn bodyIn).ok =
        false ∧
      (sendRoute ts (some e) af appendErr hist toIn subjIn bodyIn).error = e := by
  have hv : ¬(trim toIn = [] ∨ trim subjIn = [] ∨ trim bodyIn = []) := by
    push_neg
    exact ⟨h1, h2, h3⟩
  constructor
  · simp only [sendRoute]
    rw [if_neg hv]
    rfl
  · intro af
    simp only [sendRoute]
    rw [if_neg hv]
    cases af <;> exact ⟨rfl, rfl⟩

/-- C9 witness: the failure path at concrete inputs, with the history
store working and broken. -/
theorem sendRoute_failure_logging_witness :
    sendRoute "t0".data (some "boom".data) false "ioerr".data []
        " a@b.c ".data "s".data "b".data =
      ⟨false, "boom".data, [⟨"t0".data, "a@b.c".data, "s".data, "b".data,
        "failed".data, "boom".data⟩]⟩ ∧
    (sendRoute "t0".data (some "boom".data) true "ioerr".data []
        " a@b.c ".data "s".data "b".data).ok = false ∧
    (sendRoute "t0".data (some "boom".data) true "ioerr".data []
        " a@b.c ".data "s".data "b".data).error = "boom".data := by
  have h := sendRoute_failure_logging "t0".data "boom".data "ioerr".data []
    " a@b.c ".data "s".data "b".data (by decide) (by decide) (by decide)
  exact ⟨by rw [h.1]; decide, (h.2 true).1, (h.2 true).2⟩

/-! ## Claims C2 and C3: the Full Automation Queue. -/

/-- The well-formedness facts one queue run satisfies, relative to its
start index `i`, its starting `sent` counter, the prospect count `n` and
the send cap `maxS`. -/
def autoRunOK (i sent n maxS : Nat) (r : AutoRun) : Prop :=
  r.trace.map Prod.fst = List.range' i r.trace.length ∧
  r.trace.length ≤ n - i ∧
  r.sentCount = sent + r.trace.countP (fun x => x.2 == AutoEvent.sent) ∧
  r.sentCount ≤ max sent maxS ∧
  ∀ a k e b, r.trace = a ++ (k, e) :: b → e ≠ AutoEvent.sent →
    b = [] ∧
    (e = AutoEvent.genFail → r.halt = AutoHalt.genFailed) ∧
    (e = AutoEvent.missing → r.halt = AutoHalt.missingFields) ∧
    (e = AutoEvent.sendFail → r.halt = AutoHalt.sendFailed)

lemma eq_singleton_append {α : Type} {x y : α} {a b : List α}
    (h : [x] = a ++ y :: b) : a = [] ∧ y = x ∧ b = [] := by
  cases a with
  | nil =>
    simp only [List.nil_append, List.cons.injEq] at h
    exact ⟨rfl, h.1.symm, h.2.symm⟩
  | cons x' a' =>
    simp only [List.cons_append, List.cons.injEq] at h
    exact absurd h.2 (by simp)

lemma autoRunOK_empty (i sent n maxS : Nat) (h : AutoHalt) :
    autoRunOK i sent n maxS ⟨[], sent, h⟩ := by
  refine ⟨rfl, by simp, by simp, Nat.le_max_left _ _, ?_⟩
  intro a k e b hab
  exact absurd hab (by simp)

lemma autoRunOK_fail_single (i sent n maxS : Nat) (hi : i < n)
    (ev : AutoEvent) (h : AutoHalt) (hev : ev ≠ AutoEvent.sent)
    (hgen : ev = AutoEvent.genFail → h = AutoHalt.genFailed)
    (hmis : ev = AutoEvent.missing → h = AutoHalt.missingFields)
    (hsnd : ev = AutoEvent.sendFail → h = AutoHalt.sendFailed) :
    autoRunOK i sent n maxS ⟨[(i, ev)], sent, h⟩ := by
  refine ⟨rfl, ?_, ?_, Nat.le_max_left _ _, ?_⟩
  · show [(i, ev)].length ≤ n - i
    simp only [List.length_singleton]
    omega
  · show sent = sent + [(i, ev)].countP (fun x => x.2 == AutoEvent.sent)
    simp [List.countP_cons, beq_iff_eq, hev]
  · intro a k e b hab hne
    have hab2 : [(i, ev)] = a ++ (k, e) :: b := hab
    obtain ⟨ha, hy, hb⟩ := eq_singleton_append hab2
    obtain ⟨hk, he⟩ : k = i ∧ e = ev := by
      rw [Prod.mk.injEq] at hy
      exact hy
    subst he
    exact ⟨hb, hgen, hmis, hsnd⟩

lemma autoRunOK_sent_single (i sent n maxS : Nat) (hi : i < n)
    (hs : sent < maxS) (h : AutoHalt) :
    autoRunOK i sent n maxS ⟨[(i, AutoEvent.sent)], sent + 1, h⟩ := by
  refine ⟨rfl, ?_, ?_, ?_, ?_⟩
  · show [(i, AutoEvent.sent)].length ≤ n - i
    simp only [List.length_singleton]
    omega
  · show sent + 1 = sent +
      [(i, AutoEvent.sent)].countP (fun x => x.2 == AutoEvent.sent)
    simp [List.countP_cons]
  · show sent + 1 ≤ max sent maxS
    exact le_trans (by omega : sent + 1 ≤ maxS) (Nat.le_max_right sent maxS)
  · intro a k e b hab hne
    have hab2 : [(i, AutoEvent.sent)] = a ++ (k, e) :: b := hab
    obtain ⟨ha, hy, hb⟩ := eq_singleton_append hab2
    obtain ⟨hk, he⟩ : k = i ∧ e = AutoEvent.sent := by
      rw [Prod.mk.injEq] at hy
      exact hy
    exact absurd he hne

lemma autoLoop_spec (gen : Nat → GenOut) (sendOk : Nat → Bool)
    (stopReq : Nat → Bool) (ps : List Prospect) (maxS : Nat) :
    ∀ fuel i sent, ps.length - i ≤ fuel →
      autoRunOK i sent ps.length maxS
        (autoLoop gen sendOk stopReq ps maxS i sent) := by
  intro fuel
  induction fuel with
  | zero =>
    intro i sent hf
    rw [autoLoop.eq_def]
    by_cases hstop : stopReq i = true
    · rw [if_pos hstop]
      exact autoRunOK_empty i sent ps.length maxS _
    · rw [if_neg hstop]
      have h1 : ¬(sent < maxS ∧ i < ps.length) := by omega
      rw [dif_neg h1]
      exact autoRunOK_empty i sent ps.length maxS _
  | succ fuel ih =>
    intro i sent hf
    rw [autoLoop.eq_def]
    by_cases hstop : stopReq i = true
    · rw [if_pos hstop]
      exact autoRunOK_empty i sent ps.length maxS _
    rw [if_neg hstop]
    by_cases h1 : sent < maxS ∧ i < ps.length
    case neg =>
      rw [dif_neg h1]
      exact autoRunOK_empty i sent ps.length maxS _
    rw [dif_pos h1]
    by_cases hg : (gen i).ok = false
    · rw [if_pos hg]
      exact autoRunOK_fail_single i sent ps.length maxS h1.2 _ _ (by simp)
        (fun _ => rfl) (by simp) (by simp)
    rw [if_neg hg]
    by_cases hm : trim (autoToField gen ps i) = [] ∨
        trim (gen i).subject = [] ∨ trim (gen i).body = []
    · rw [if_pos hm]
      exact autoRunOK_fail_single i sent ps.length maxS h1.2 _ _ (by simp)
        (by simp) (fun _ => rfl) (by simp)
    rw [if_neg hm]
    by_cases hsend : sendNowOk (sendOk i) (autoToField gen ps i)
        (gen i).subject (gen i).body = false
    · rw [if_pos hsend]
      exact autoRunOK_fail_single i sent ps.length maxS h1.2 _ _ (by simp)
        (by simp) (by simp) (fun _ => rfl)
    rw [if_neg hsend]
    by_cases hmax : maxS ≤ sent + 1
    · rw [if_pos hmax]
      exact autoRunOK_sent_single i sent ps.length maxS h1.2 h1.1 _
    rw [if_neg hmax]
    by_cases h3 : ps.length - 1 ≤ i
    · rw [dif_pos h3]
      exact autoRunOK_sent_single i sent ps.length maxS h1.2 h1.1 _
    rw [dif_neg h3]
    obtain ⟨hA, hB, hC, hD, hE⟩ := ih (i + 1) (sent + 1) (by omega)
    refine ⟨?_, ?_, ?_, ?_, ?_⟩
    · show ((i, AutoEvent.sent) ::
          (autoLoop gen sendOk stopReq ps maxS (i + 1) (sent + 1)).trace).map
          Prod.fst = List.range' i ((i, AutoEvent.sent) ::
          (autoLoop gen sendOk stopReq ps maxS (i + 1) (sent + 1)).trace).length
      simp only [List.map_cons, List.length_cons]
      rw [hA, List.range'_succ]
    · show ((i, AutoEvent.sent) ::
          (autoLoop gen sendOk stopReq ps maxS (i + 1) (sent + 1)).trace).length ≤
          ps.length - i
      simp only [List.length_cons]
      omega
    · show (autoLoop gen sendOk stopReq ps maxS (i + 1) (sent + 1)).sentCount =
        sent + ((i, AutoEvent.sent) ::
          (autoLoop gen sendOk stopReq ps maxS (i + 1) (sent + 1)).trace).countP
          (fun x => x.2 == AutoEvent.sent)
      rw [hC]
      simp only [List.countP_cons]
      simp
      omega
    · show (autoLoop gen sendOk stopReq ps maxS (i + 1) (sent + 1)).sentCount ≤
        max sent maxS
      refine le_trans hD ?_
      rw [Nat.max_eq_right (by omega : sent + 1 ≤ maxS)]
      exact Nat.le_max_right sent maxS
    · intro a k e b hab hne
      have hab2 : (i, AutoEvent.sent) ::
          (autoLoop gen sendOk stopReq ps maxS (i + 1) (sent + 1)).trace =
          a ++ (k, e) :: b := hab
      cases a with
      | nil =>
        simp only [List.nil_append, List.cons.injEq] at hab2
        exact absurd (congrArg Prod.snd hab2.1.symm) hne
      | cons x a' =>
        simp only [List.cons_append, List.cons.injEq] at hab2
        exact hE a' k e b hab2.2 hne

/-- C2: the parameters are clamped at start (`maxSends` into `[1,15]`
with default 15, `delaySeconds` into `[2,600]` with default 12); the
run's `sentCount` equals the number of successful sends in its trace,
never exceeds the clamped `maxSends` (in particular never exceeds 15),
and never exceeds the number of prospects from the start index. -/
theorem autoQueue_send_bounds (gen : Nat → GenOut) (sendOk : Nat → Bool)
    (stopReq : Nat → Bool) (ps : List Prospect) (maxRaw delayRaw : Option Int)
    (activeIndex : Int) :
    (1 ≤ clampMax maxRaw ∧ clampMax maxRaw ≤ 15 ∧ clampMax none = 15) ∧
    (2 ≤ clampDelay delayRaw ∧ clampDelay delayRaw ≤ 600 ∧
      clampDelay none = 12) ∧
    (runFullAutomationQueue gen sendOk stopReq ps maxRaw
        activeIndex).sentCount =
      (runFullAutomationQueue gen sendOk stopReq ps maxRaw
        activeIndex).trace.countP (fun x => x.2 == AutoEvent.sent) ∧
    (runFullAutomationQueue gen sendOk stopReq ps maxRaw
        activeIndex).sentCount ≤ (clampMax maxRaw).toNat ∧
    (runFullAutomationQueue gen sendOk stopReq ps maxRaw
        activeIndex).sentCount ≤ 15 ∧
    (runFullAutomationQueue gen sendOk stopReq ps maxRaw
        activeIndex).sentCount ≤
      ps.length - (if activeIndex < 0 then 0 else activeIndex.toNat) := by
  have hM1 : 1 ≤ clampMax maxRaw := by
    cases maxRaw with
    | none => simp [clampMax]
    | some x => exact le_max_left 1 _
  have hM2 : clampMax maxRaw ≤ 15 := by
    cases maxRaw with
    | none => simp [clampMax]
    | some x => exact max_le (by norm_num) (min_le_left 15 x)
  have hD1 : 2 ≤ clampDelay delayRaw := by
    cases delayRaw with
    | none => simp [clampDelay]
    | some x => exact le_max_left 2 _
  have hD2 : clampDelay delayRaw ≤ 600 := by
    cases delayRaw with
    | none => simp [clampDelay]
    | some x => exact max_le (by norm_num) (min_le_left 600 x)
  refine ⟨⟨hM1, hM2, rfl⟩, ⟨hD1, hD2, rfl⟩, ?_⟩
  have h15 : (clampMax maxRaw).toNat ≤ 15 := by omega
  by_cases hps : ps.length = 0
  · have hrun : runFullAutomationQueue gen sendOk stopReq ps maxRaw
        activeIndex = ⟨[], 0, .noProspects⟩ := by
      simp only [runFullAutomationQueue, if_pos hps]
    rw [hrun]
    refine ⟨by simp, by simp, by simp, by simp⟩
  · have hrun : runFullAutomationQueue gen sendOk stopReq ps maxRaw
        activeIndex =
        autoLoop gen sendOk stopReq ps (clampMax maxRaw).toNat
          (if activeIndex < 0 then 0 else activeIndex.toNat) 0 := by
      simp only [runFullAutomationQueue, if_neg hps]
    obtain ⟨hA, hB, hC, hD, hE⟩ := autoLoop_spec gen sendOk stopReq ps
      (clampMax maxRaw).toNat ps.length
      (if activeIndex < 0 then 0 else activeIndex.toNat) 0 (by omega)
    rw [hrun]
    have hC0 : (autoLoop gen sendOk stopReq ps (clampMax maxRaw).toNat
        (if activeIndex < 0 then 0 else activeIndex.toNat) 0).sentCount =
        (autoLoop gen sendOk stopReq ps (clampMax maxRaw).toNat
          (if activeIndex < 0 then 0 else activeIndex.toNat) 0).trace.countP
          (fun x => x.2 == AutoEvent.sent) := by
      simpa using hC
    have hcap : (autoLoop gen sendOk stopReq ps (clampMax maxRaw).toNat
        (if activeIndex < 0 then 0 else activeIndex.toNat) 0).sentCount ≤
        (clampMax maxRaw).toNat := by
      simpa using hD
    refine ⟨hC0, hcap, le_trans hcap h15, ?_⟩
    rw [hC0]
    exact le_trans (List.countP_le_length _) hB

/-- C3: the trace of a queue run visits consecutive prospect indices from
the start index (no skipping, no revisiting), and any failure event —
generation failure, missing field after generation, or send failure — is
the last event of the run (no further send is attempted) with the run
halting in the state that carries that failure's specific message. -/
theorem autoQueue_fail_fast (gen : Nat → GenOut) (sendOk : Nat → Bool)
    (stopReq : Nat → Bool) (ps : List Prospect) (maxRaw : Option Int)
    (activeIndex : Int) :
    (runFullAutomationQueue gen sendOk stopReq ps maxRaw
        activeIndex).trace.map Prod.fst =
      List.range' (if activeIndex < 0 then 0 else activeIndex.toNat)
        (runFullAutomationQueue gen sendOk stopReq ps maxRaw
          activeIndex).trace.length ∧
    ∀ a k e b,
      (runFullAutomationQueue gen sendOk stopReq ps maxRaw
        activeIndex).trace = a ++ (k, e) :: b →
      e ≠ AutoEvent.sent →
      b = [] ∧
      (e = AutoEvent.genFail →
        (runFullAutomationQueue gen sendOk stopReq ps maxRaw
          activeIndex).halt = AutoHalt.genFailed) ∧
      (e = AutoEvent.missing →
        (runFullAutomationQueue gen sendOk stopReq ps maxRaw
          activeIndex).halt = AutoHalt.missingFields) ∧
      (e = AutoEvent.sendFail →
        (runFullAutomationQueue gen sendOk stopReq ps maxRaw
          activeIndex).halt = AutoHalt.sendFailed) := by
  by_cases hps : ps.length = 0
  · have hrun : runFullAutomationQueue gen sendOk stopReq ps maxRaw
        activeIndex = ⟨[], 0, .noProspects⟩ := by
      simp only [runFullAutomationQueue, if_pos hps]
    rw [hrun]
    refine ⟨rfl, ?_⟩
    intro a k e b hab
    exact absurd hab (by simp)
  · have hrun : runFullAutomationQueue gen sendOk stopReq ps maxRaw
        activeIndex =
        autoLoop gen sendOk stopReq ps (clampMax maxRaw).toNat
          (if activeIndex < 0 then 0 else activeIndex.toNat) 0 := by
      simp only [runFullAutomationQueue, if_neg hps]
    obtain ⟨hA, hB, hC, hD, hE⟩ := autoLoop_spec gen sendOk stopReq ps
      (clampMax maxRaw).toNat ps.length
      (if activeIndex < 0 then 0 else activeIndex.toNat) 0 (by omega)
    rw [hrun]
    exact ⟨hA, hE⟩

/-! ## Claim C5: Play Mode approval. -/

/-- C5: with Play Mode running and an approval pending, after a
successful approved send the controller stops cleanly when the cursor is
at the last prospect (Play Mode off, approval cleared, no further
generation); otherwise it advances the cursor by exactly one, stays
running, and re-runs the generate step exactly once, for the next
prospect. -/
theorem approve_auto_advance (s : PlayState) (genOk : Int → Bool)
    (hA : s.awaitingApproval = true) (hP : s.playRunning = true) :
    (s.activeIndex = (s.prospects.length : Int) - 1 →
      approveClick genOk true s =
        ({ s with awaitingApproval := false, playRunning := false },
          [PlayEvent.send])) ∧
    (0 ≤ s.activeIndex → s.activeIndex < (s.prospects.length : Int) - 1 →
      (approveClick genOk true s).2 =
        [PlayEvent.send, PlayEvent.generate (s.activeIndex + 1)] ∧
      (approveClick genOk true s).1.activeIndex = s.activeIndex + 1 ∧
      (approveClick genOk true s).1.playRunning = true ∧
      (approveClick genOk true s).1.prospects = s.prospects) := by
  have h1 : ¬(s.awaitingApproval = false) := by rw [hA]; simp
  have h2 : ¬(true = false) := by simp
  have h3 : ¬(s.playRunning = false) := by rw [hP]; simp
  constructor
  · intro hlast
    simp only [approveClick]
    rw [if_neg h1, if_neg h2, if_neg h3, if_pos (le_of_eq hlast.symm)]
  · intro hge hlt
    have h4 : ¬((s.prospects.length : Int) - 1 ≤ s.activeIndex) := by omega
    simp only [approveClick]
    rw [if_neg h1, if_neg h2, if_neg h3, if_neg h4]
    have hne : s.prospects.isEmpty = false := by
      rw [List.isEmpty_eq_false]
      intro hnil
      rw [hnil] at hlt
      simp at hlt
      omega
    have hpos : ¬(s.activeIndex + 1 < 0) := by omega
    simp only [startCycleForCurrentProspect, setActiveS]
    rw [if_neg (by rw [hne]; simp), if_neg hpos]
    by_cases hg : genOk (s.activeIndex + 1) = true
    · rw [if_pos hg]
      exact ⟨rfl, rfl, hP, rfl⟩
    · rw [if_neg hg]
      exact ⟨rfl, rfl, hP, rfl⟩

/-- C5 witness: the advance case at a concrete two-prospect state. -/
theorem approve_auto_advance_witness :
    (approveClick (fun _ => true) true
      ⟨[⟨"A".data, "a@x.y".data⟩, ⟨"B".data, "b@x.y".data⟩],
        0, true, true⟩).2 =
      [PlayEvent.send, PlayEvent.generate 1] ∧
    (approveClick (fun _ => true) true
      ⟨[⟨"A".data, "a@x.y".data⟩, ⟨"B".data, "b@x.y".data⟩],
        0, true, true⟩).1.activeIndex = 1 := by
  have h := (approve_auto_advance
    ⟨[⟨"A".data, "a@x.y".data⟩, ⟨"B".data, "b@x.y".data⟩], 0, true, true⟩
    (fun _ => true) rfl rfl).2 (by decide) (by decide)
  exact ⟨h.1, h.2.1⟩

end Dashboard
